import Mathlib

/-!
Verification of the umi-checker matching engine and batch pipeline.

Byte sequences are modelled as `List Nat` with every element below 256.
Machine 64-bit words are modelled as `Nat` with explicit `% 2 ^ 64`
reductions wherever the Rust code relies on wrapping arithmetic.
Rust panics are modelled with `Option`: `none` is a panic.
-/

namespace UmiChecker

/-- The 64-bit constant `0x0101010101010101` (one in every byte lane). -/
def LOW_ONES : Nat := 0x0101010101010101

/-- The 64-bit constant `0x8080808080808080` (high bit of every byte lane). -/
def HIGH_BITS : Nat := 0x8080808080808080

/-- The 64-bit constant `0x4E4E4E4E4E4E4E4E` (ASCII 'N' in every byte lane). -/
def N_REP : Nat := 0x4E4E4E4E4E4E4E4E

/-- `matcher.rs::count_nonzero_bytes`: SWAR count of non-zero bytes of a
64-bit word.  The three or-shift steps accumulate each byte's bits into its
least significant bit, the mask keeps those bits, and the wrapping multiply
by `0x0101...01` sums them into the top byte. -/
def count_nonzero_bytes (x : Nat) : Nat :=
  let x1 := x ||| (x >>> 4)
  let x2 := x1 ||| (x1 >>> 2)
  let x3 := x2 ||| (x2 >>> 1)
  let m := x3 &&& LOW_ONES
  ((m * LOW_ONES) % 2 ^ 64) >>> 56

/-- `matcher.rs::is_n_mask`: bit-hack intended to put `0x80` in each byte
lane of a 64-bit word that equals `0x4E` ('N').  `diff.wrapping_sub(0x01…01)`
is modelled as addition of the two's complement followed by `% 2 ^ 64`, and
`!diff` as xor with `0xFF…FF` (exact for `x < 2 ^ 64`). -/
def is_n_mask (x : Nat) : Nat :=
  let diff := x ^^^ N_REP
  ((diff + (2 ^ 64 - LOW_ONES)) % 2 ^ 64) &&& (0xFFFFFFFFFFFFFFFF ^^^ diff) &&& HIGH_BITS

/-- `u64::from_ne_bytes` on this (little-endian) target: the first byte of
the slice is the least significant lane of the word. -/
def packWordLe : List Nat → Nat
  | [] => 0
  | b :: rest => b + 256 * packWordLe rest

/-- The full 8-byte chunks of a list, mirroring `slice::chunks_exact(8)`:
blocks of 8 consecutive bytes, in order; trailing bytes that do not fill a
block are left to the remainder. -/
def chunksExact8 : List Nat → List (List Nat)
  | b0 :: b1 :: b2 :: b3 :: b4 :: b5 :: b6 :: b7 :: rest =>
    [b0, b1, b2, b3, b4, b5, b6, b7] :: chunksExact8 rest
  | _ => []

/-- The remainder of `slice::chunks_exact(8)`: the trailing bytes (fewer
than 8) that do not fill a full chunk. -/
def remainder8 : List Nat → List Nat
  | _ :: _ :: _ :: _ :: _ :: _ :: _ :: _ :: rest => remainder8 rest
  | l => l

/-- The per-8-byte-block body of `hamming_distance`: XOR the packed words to
flag differing lanes, or in the `is_n_mask` of each operand, and count the
non-zero lanes. -/
def wordDist (s1 s2 : List Nat) : Nat :=
  let c1 := packWordLe s1
  let c2 := packWordLe s2
  let diff := c1 ^^^ c2
  let n_present := is_n_mask c1 ||| is_n_mask c2
  count_nonzero_bytes (diff ||| n_present)

/-- `matcher.rs::hamming_distance`: sum of the SWAR block distances over the
zipped full 8-byte chunks plus the serial per-byte loop over the zipped
remainders (`a != b || a == b'N' || b == b'N'`).  The Rust function asserts
equal lengths; every theorem below only applies it to equal-length lists,
where this total model coincides with the source. -/
def hamming_distance (seq1 seq2 : List Nat) : Nat :=
  (((chunksExact8 seq1).zip (chunksExact8 seq2)).map (fun p => wordDist p.1 p.2)).sum
    + ((remainder8 seq1).zip (remainder8 seq2)).countP
        (fun p => p.1 != p.2 || p.1 == 78 || p.2 == 78)

/-- The naive per-byte reference loop: the same equality-plus-ambiguity rule
as the source's serial remainder loop (`a != b || a == b'N' || b == b'N'`),
applied at every position. -/
def naiveHammingDistance (a b : List Nat) : Nat :=
  (a.zip b).countP (fun p => p.1 != p.2 || p.1 == 78 || p.2 == 78)

/-- Distance rule written from the spec's words: count positions where the
bytes differ, or either byte is `N` (78) or `n` (110); an ambiguous base
counts as a mismatch even against itself. -/
def specHammingDistance (a b : List Nat) : Nat :=
  (a.zip b).countP
    (fun p => p.1 != p.2 || p.1 == 78 || p.1 == 110 || p.2 == 78 || p.2 == 110)

/-- All contiguous windows of length `n`, mirroring `slice::windows(n)` for
`n ≥ 1` (the Rust call panics for `n = 0`; callers below guard that case). -/
def windowsList (n : Nat) (l : List Nat) : List (List Nat) :=
  (List.range (l.length + 1 - n)).map (fun i => (l.drop i).take n)

/-- `is_umi_in_read`'s chunk-boundary helper `get_chunk_range`. -/
def get_chunk_range (umiLen numChunks chunkSize idx : Nat) : Nat × Nat :=
  (idx * chunkSize, if idx = numChunks - 1 then umiLen else (idx + 1) * chunkSize)

/-- The Rust slice `l[s..e]`. -/
def sliceRange (l : List Nat) (s e : Nat) : List Nat :=
  (l.drop s).take (e - s)

/-- `is_umi_in_read`'s helper `has_matching_chunk`: does any of the
`numChunks` chunks of `umi` match the window byte-for-byte? -/
def has_matching_chunk (umi window : List Nat) (numChunks chunkSize : Nat) : Bool :=
  (List.range numChunks).any (fun idx =>
    let r := get_chunk_range umi.length numChunks chunkSize idx
    sliceRange umi r.1 r.2 == sliceRange window r.1 r.2)

/-- `matcher.rs::is_umi_in_read`.  `maxMismatches` is a `u32`, so its
meaningful domain is `maxMismatches < 2 ^ 32`.  `none` models a panic:
the `read.windows(0)` call reached whenever `umi` is empty, and the
`max_mismatches + 1` overflow at `u32::MAX` (a panic in debug builds; in
release it wraps to `num_chunks = 0` and the subsequent
`umi_len / num_chunks` division panics — either way no boolean is
returned).  All other paths mirror the source: the exact scan for
`max_mismatches == 0`, the full-distance fallback when the UMI is shorter
than `max_mismatches + 1`, and the pigeonhole search. -/
def is_umi_in_read (umi read : List Nat) (maxMismatches : Nat) : Option Bool :=
  let umiLen := umi.length
  if read.length < umiLen then some false
  else if maxMismatches = 0 then
    if umiLen = 0 then none
    else some ((windowsList umiLen read).any (fun w => w == umi))
  else
    if maxMismatches + 1 ≥ 2 ^ 32 then none
    else
      let numChunks := maxMismatches + 1
      if umiLen < numChunks then
        if umiLen = 0 then none
        else some ((windowsList umiLen read).any
          (fun w => decide (hamming_distance umi w ≤ maxMismatches)))
      else
        let chunkSize := umiLen / numChunks
        some ((windowsList umiLen read).any (fun w =>
          has_matching_chunk umi w numChunks chunkSize
            && decide (hamming_distance umi w ≤ maxMismatches)))

/-! ## UMI extraction (`lib.rs::extract_umi_from_header`) -/

/-- A UTF-8 continuation byte (`0x80..=0xBF`). -/
def utf8Cont (b : Nat) : Bool := 128 ≤ b && b ≤ 191

/-- Strict UTF-8 decoding of a byte list into Unicode scalar values,
mirroring `std::str::from_utf8` (rejects overlong forms, surrogates and
out-of-range values).  `none` models a `Utf8Error`. -/
def decodeUtf8 (l : List Nat) : Option (List Nat) :=
  match l with
  | [] => some []
  | b :: rest =>
    if b ≤ 127 then (decodeUtf8 rest).map (b :: ·)
    else if 194 ≤ b && b ≤ 223 then
      match rest with
      | c1 :: rest2 =>
        if utf8Cont c1 then (decodeUtf8 rest2).map (((b - 192) * 64 + (c1 - 128)) :: ·)
        else none
      | [] => none
    else if 224 ≤ b && b ≤ 239 then
      match rest with
      | c1 :: c2 :: rest2 =>
        if (if b = 224 then 160 else 128) ≤ c1 && c1 ≤ (if b = 237 then 159 else 191)
            && utf8Cont c2 then
          (decodeUtf8 rest2).map (((b - 224) * 4096 + (c1 - 128) * 64 + (c2 - 128)) :: ·)
        else none
      | _ => none
    else if 240 ≤ b && b ≤ 244 then
      match rest with
      | c1 :: c2 :: c3 :: rest2 =>
        if (if b = 240 then 144 else 128) ≤ c1 && c1 ≤ (if b = 244 then 143 else 191)
            && utf8Cont c2 && utf8Cont c3 then
          (decodeUtf8 rest2).map
            (((b - 240) * 262144 + (c1 - 128) * 4096 + (c2 - 128) * 64 + (c3 - 128)) :: ·)
        else none
      | _ => none
    else none

/-- `char::is_whitespace`: the Unicode `White_Space` code points. -/
def isRustWhitespace (c : Nat) : Bool :=
  c = 9 || c = 10 || c = 11 || c = 12 || c = 13 || c = 32 || c = 133 || c = 160 ||
  c = 5760 || (8192 ≤ c && c ≤ 8202) || c = 8232 || c = 8233 || c = 8239 ||
  c = 8287 || c = 12288

/-- `str::split_whitespace().next()` on a decoded scalar sequence: drop
leading whitespace; `none` when nothing remains, otherwise the run of
non-whitespace scalars. -/
def firstToken (s : List Nat) : Option (List Nat) :=
  let s1 := s.dropWhile isRustWhitespace
  if s1.isEmpty then none
  else some (s1.takeWhile (fun c => !isRustWhitespace c))

/-- `str::rsplit([':', '_']).next()`: the (possibly empty) suffix after the
last `':'` (58) or `'_'` (95); the whole token when neither occurs. -/
def afterLastSep (t : List Nat) : List Nat :=
  (t.reverse.takeWhile (fun c => !(c == 58 || c == 95))).reverse

/-- UTF-8 encoding of one Unicode scalar value. -/
def encodeUtf8Char (c : Nat) : List Nat :=
  if c ≤ 127 then [c]
  else if c ≤ 2047 then [192 + c / 64, 128 + c % 64]
  else if c ≤ 65535 then [224 + c / 4096, 128 + c / 64 % 64, 128 + c % 64]
  else [240 + c / 262144, 128 + c / 4096 % 64, 128 + c / 64 % 64, 128 + c % 64]

/-- UTF-8 encoding of a scalar sequence; `str::as_bytes` of the extracted
token, whose `.length` is the `str::len` the source compares. -/
def encodeUtf8 (s : List Nat) : List Nat :=
  s.foldr (fun c acc => encodeUtf8Char c ++ acc) []

/-- `slice::to_ascii_uppercase`: map bytes `a..z` (97..122) to `A..Z`. -/
def toAsciiUppercase (bs : List Nat) : List Nat :=
  bs.map (fun b => if 97 ≤ b ∧ b ≤ 122 then b - 32 else b)

/-- Outcome of `extract_umi_from_header`: `panics` models the
`panic!("UMI length does not match …")` call. -/
inductive ExtractOutcome where
  | panics : ExtractOutcome
  | noUmi : ExtractOutcome
  | umi (token : List Nat) : ExtractOutcome
deriving DecidableEq

/-- The `umi_str` candidate computed by `extract_umi_from_header` before its
length check: decode the header as UTF-8, take the first
whitespace-separated token, keep the part after the last `':'`/`'_'`. -/
def candidateUmiStr (header : List Nat) : Option (List Nat) :=
  match decodeUtf8 header with
  | none => none
  | some s =>
    match firstToken s with
    | none => none
    | some tok => some (afterLastSep tok)

/-- `lib.rs::extract_umi_from_header`: `noUmi` for malformed UTF-8 or an
all-whitespace header (the `?` early returns), `panics` when the candidate's
byte length differs from `expected_length`, otherwise the uppercased bytes
of the candidate. -/
def extract_umi_from_header (header : List Nat) (expectedLength : Nat) : ExtractOutcome :=
  match candidateUmiStr header with
  | none => .noUmi
  | some c =>
    if (encodeUtf8 c).length ≠ expectedLength then .panics
    else .umi (toAsciiUppercase (encodeUtf8 c))

/-! ## Batch pipeline (`processing.rs`) -/

/-- An owned FASTQ record as batched by `process_fastq`. -/
structure FastqRecord where
  head : List Nat
  seq : List Nat
  qual : Option (List Nat)
deriving DecidableEq

/-- The per-record body of `process_batch`'s parallel compute phase:
an extracted UMI is searched for in the sequence, a missing UMI yields
`false`, and a panic (from the extractor's length check or from an empty
UMI reaching `read.windows(0)`) aborts the run. -/
def classify (r : FastqRecord) (maxM umiLen : Nat) : Option Bool :=
  match extract_umi_from_header r.head umiLen with
  | .panics => none
  | .noUmi => some false
  | .umi u => is_umi_in_read u r.seq maxM

/-- The parallel compute phase: one boolean per record, index-aligned with
the batch (`batch.par_iter().map(…).collect()`); a panic in any worker
aborts the whole run. -/
def classifyAll (batch : List FastqRecord) (maxM umiLen : Nat) : Option (List Bool) :=
  match batch with
  | [] => some []
  | r :: rest =>
    match classify r maxM umiLen, classifyAll rest maxM umiLen with
    | some b, some bs => some (b :: bs)
    | _, _ => none

/-- The serial write phase of `process_batch`: consume the batch in order,
routing each record to the removed writer when matched and to the kept
writer otherwise, incrementing the corresponding counter.  Writers are
modelled as the lists of records written so far. -/
def serialWrite : List (FastqRecord × Bool) → List FastqRecord → List FastqRecord →
    Nat → Nat → List FastqRecord × List FastqRecord × Nat × Nat
  | [], kw, rw, removed, kept => (kw, rw, removed, kept)
  | (r, matched) :: rest, kw, rw, removed, kept =>
    if matched then serialWrite rest kw (rw ++ [r]) (removed + 1) kept
    else serialWrite rest (kw ++ [r]) rw removed (kept + 1)

/-- `processing.rs::process_batch`: parallel compute then serial writes;
returns the updated writers together with the `(removed, kept)` counts. -/
def process_batch (batch : List FastqRecord) (kw rw : List FastqRecord)
    (maxM umiLen : Nat) : Option (List FastqRecord × List FastqRecord × Nat × Nat) :=
  if batch.isEmpty then some (kw, rw, 0, 0)
  else
    match classifyAll batch maxM umiLen with
    | none => none
    | some results => some (serialWrite (batch.zip results) kw rw 0 0)

/-- The record loop of `processing.rs::process_fastq`: accumulate records
into a batch, dispatch it when it reaches `batchSize`, and flush the final
partial batch after the stream ends.  The state mirrors the source's
`stats = (total, removed, kept)` plus the two writers; the result is
`(total, removed, kept, kept-writer, removed-writer)`. -/
def process_loop (records : List FastqRecord) (batchSize maxM umiLen : Nat)
    (batch : List FastqRecord) (total removed kept : Nat)
    (kw rw : List FastqRecord) :
    Option (Nat × Nat × Nat × List FastqRecord × List FastqRecord) :=
  match records with
  | [] =>
    match process_batch batch kw rw maxM umiLen with
    | none => none
    | some (kw2, rw2, rInc, kInc) => some (total, removed + rInc, kept + kInc, kw2, rw2)
  | r :: rest =>
    let batch2 := batch ++ [r]
    if batchSize ≤ batch2.length then
      match process_batch batch2 kw rw maxM umiLen with
      | none => none
      | some (kw2, rw2, rInc, kInc) =>
        process_loop rest batchSize maxM umiLen [] (total + 1) (removed + rInc) (kept + kInc) kw2 rw2
    else
      process_loop rest batchSize maxM umiLen batch2 (total + 1) removed kept kw rw

/-- `processing.rs::BATCH_SIZE`. -/
def BATCH_SIZE : Nat := 10000

/-- `process_fastq`'s record processing with an explicit batch size; the
reader is abstracted as the list of records it yields and the two output
writers start empty. -/
def process_fastq_with (batchSize : Nat) (records : List FastqRecord) (maxM umiLen : Nat) :
    Option (Nat × Nat × Nat × List FastqRecord × List FastqRecord) :=
  process_loop records batchSize maxM umiLen [] 0 0 0 [] []

/-- `processing.rs::process_fastq` over an abstract record stream, with the
source's fixed batch size. -/
def process_fastq (records : List FastqRecord) (maxM umiLen : Nat) :
    Option (Nat × Nat × Nat × List FastqRecord × List FastqRecord) :=
  process_fastq_with BATCH_SIZE records maxM umiLen

/-- Byte lane `i` of a 64-bit word (analysis helper). -/
def lane (i x : Nat) : Nat := (x >>> (8 * i)) &&& 255

/-! ## SWAR word lemmas -/

theorem lane_and (i x y : Nat) : lane i (x &&& y) = lane i x &&& lane i y := by
  unfold lane
  apply Nat.eq_of_testBit_eq
  intro j
  simp only [Nat.testBit_and, Nat.testBit_shiftRight]
  cases hx : Nat.testBit x (8 * i + j) <;> cases hy : Nat.testBit y (8 * i + j) <;>
    cases h255 : Nat.testBit 255 j <;> rfl

theorem lane_or (i x y : Nat) : lane i (x ||| y) = lane i x ||| lane i y := by
  unfold lane
  apply Nat.eq_of_testBit_eq
  intro j
  simp [Nat.testBit_and, Nat.testBit_or, Nat.testBit_shiftRight, Bool.and_or_distrib_right]

theorem lane_xor (i x y : Nat) : lane i (x ^^^ y) = lane i x ^^^ lane i y := by
  unfold lane
  apply Nat.eq_of_testBit_eq
  intro j
  simp only [Nat.testBit_and, Nat.testBit_xor, Nat.testBit_shiftRight]
  cases hx : Nat.testBit x (8 * i + j) <;> cases hy : Nat.testBit y (8 * i + j) <;>
    cases h255 : Nat.testBit 255 j <;> rfl

theorem or_ne_zero_left {a : Nat} (b : Nat) (ha : a ≠ 0) : a ||| b ≠ 0 := by
  intro h
  rcases Nat.ne_zero_implies_bit_true ha with ⟨i, hi⟩
  have := congrArg (fun t => Nat.testBit t i) h
  simp [hi] at this

theorem lane_zero (x : Nat) : lane 0 x = x % 256 := by
  unfold lane
  rw [Nat.mul_zero, Nat.shiftRight_zero, show (255 : Nat) = 2 ^ 8 - 1 from by norm_num,
    Nat.and_pow_two_sub_one_eq_mod]

theorem lane_succ (i x : Nat) : lane (i + 1) x = lane i (x >>> 8) := by
  unfold lane
  rw [show 8 * (i + 1) = 8 + 8 * i by omega, Nat.shiftRight_add]

theorem packWordLe_lt (bs : List Nat) (hb : ∀ b ∈ bs, b < 256) :
    packWordLe bs < 2 ^ (8 * bs.length) := by
  induction bs with
  | nil => simp [packWordLe]
  | cons b rest ih =>
    have hb0 : b < 256 := hb b (by simp)
    have hrest := ih (fun x hx => hb x (by simp [hx]))
    simp only [packWordLe, List.length_cons]
    have : 2 ^ (8 * (rest.length + 1)) = 256 * 2 ^ (8 * rest.length) := by
      rw [show 8 * (rest.length + 1) = 8 + 8 * rest.length by omega, pow_add]
      norm_num
    omega

theorem lane_zero_pack (b : Nat) (rest : List Nat) (hb : b < 256) :
    lane 0 (packWordLe (b :: rest)) = b := by
  rw [lane_zero]
  simp only [packWordLe]
  omega

theorem shiftRight8_pack (b : Nat) (rest : List Nat) (hb : b < 256) :
    packWordLe (b :: rest) >>> 8 = packWordLe rest := by
  rw [Nat.shiftRight_eq_div_pow]
  simp only [packWordLe]
  norm_num
  omega

theorem lane_pack (bs : List Nat) (hb : ∀ b ∈ bs, b < 256) (i : Nat)
    (hi : i < bs.length) : lane i (packWordLe bs) = bs.getD i 0 := by
  induction bs generalizing i with
  | nil => simp at hi
  | cons b rest ih =>
    have hb0 : b < 256 := hb b (by simp)
    cases i with
    | zero => simpa using lane_zero_pack b rest hb0
    | succ j =>
      rw [lane_succ, shiftRight8_pack b rest hb0]
      simpa using ih (fun x hx => hb x (by simp [hx])) j (by simpa using hi)

theorem pack_lanes : ∀ (n x : Nat), x < 2 ^ (8 * n) →
    packWordLe ((List.range n).map (fun i => lane i x)) = x := by
  intro n
  induction n with
  | zero =>
    intro x hx
    simp only [Nat.mul_zero, pow_zero, Nat.lt_one_iff] at hx
    simp [hx, packWordLe]
  | succ n ih =>
    intro x hx
    rw [List.range_succ_eq_map]
    simp only [List.map_cons, List.map_map]
    have htail : ((List.range n).map (fun i => lane (i + 1) x)) =
        (List.range n).map (fun i => lane i (x >>> 8)) := by
      apply List.map_congr_left
      intro i _
      exact lane_succ i x
    have hshift : x >>> 8 < 2 ^ (8 * n) := by
      rw [Nat.shiftRight_eq_div_pow]
      have h2 : 2 ^ (8 * (n + 1)) = 2 ^ (8 * n) * 2 ^ 8 := by
        rw [show 8 * (n + 1) = 8 * n + 8 by omega, pow_add]
      rw [h2] at hx
      have h256 : (2 : Nat) ^ 8 = 256 := by norm_num
      rw [h256] at hx ⊢
      omega
    have hcomp : (fun i => lane i x) ∘ Nat.succ = fun i => lane (i + 1) x := rfl
    rw [hcomp, htail]
    simp only [packWordLe]
    rw [ih (x >>> 8) hshift, lane_zero, Nat.shiftRight_eq_div_pow]
    have h256 : (2 : Nat) ^ 8 = 256 := by norm_num
    rw [h256]
    omega

theorem lane_ne_zero_iff {x : Nat} (i : Nat) :
    lane i x ≠ 0 ↔ ∃ k, k < 8 ∧ x.testBit (8 * i + k) = true := by
  constructor
  · intro h
    rcases Nat.ne_zero_implies_bit_true h with ⟨k, hk⟩
    have hk8 : k < 8 := by
      by_contra hge
      have hlt : lane i x < 2 ^ k := by
        calc lane i x ≤ 255 := Nat.and_le_right
          _ < 2 ^ 8 := by norm_num
          _ ≤ 2 ^ k := Nat.pow_le_pow_right (by norm_num) (by omega)
      rw [Nat.testBit_lt_two_pow hlt] at hk
      exact Bool.false_ne_true hk
    refine ⟨k, hk8, ?_⟩
    unfold lane at hk
    simp only [Nat.testBit_and, Nat.testBit_shiftRight, Bool.and_eq_true] at hk
    exact hk.1
  · rintro ⟨k, hk8, hbit⟩
    intro h0
    have hk : (lane i x).testBit k = true := by
      unfold lane
      simp only [Nat.testBit_and, Nat.testBit_shiftRight, hbit, Bool.true_and]
      interval_cases k <;> decide
    rw [h0] at hk
    simp at hk

theorem cascade_testBit (x i : Nat) :
    ((((x ||| x >>> 4) ||| ((x ||| x >>> 4) >>> 2)) |||
      (((x ||| x >>> 4) ||| ((x ||| x >>> 4) >>> 2)) >>> 1))).testBit (8 * i) =
    decide (lane i x ≠ 0) := by
  have expand : ∀ (j : Nat),
      ((((x ||| x >>> 4) ||| ((x ||| x >>> 4) >>> 2)) |||
        (((x ||| x >>> 4) ||| ((x ||| x >>> 4) >>> 2)) >>> 1))).testBit j =
      (((x.testBit j || x.testBit (j + 4)) || (x.testBit (j + 2) || x.testBit (j + 6))) ||
       ((x.testBit (j + 1) || x.testBit (j + 5)) || (x.testBit (j + 3) || x.testBit (j + 7)))) := by
    intro j
    simp only [Nat.testBit_or, Nat.testBit_shiftRight]
    rw [show 4 + (2 + (1 + j)) = j + 7 by omega, show 4 + (2 + j) = j + 6 by omega,
      show 4 + (1 + j) = j + 5 by omega, show 2 + (1 + j) = j + 3 by omega,
      show 4 + j = j + 4 by omega, show 2 + j = j + 2 by omega,
      show 1 + j = j + 1 by omega]
  rw [expand (8 * i)]
  by_cases h : lane i x ≠ 0
  · rcases (lane_ne_zero_iff i).mp h with ⟨k, hk8, hbit⟩
    have h0 : x.testBit (8 * i + 0) = x.testBit (8 * i) := by norm_num
    rw [decide_eq_true h]
    interval_cases k <;> simp_all
  · have hall : ∀ k, k < 8 → x.testBit (8 * i + k) = false := by
      intro k hk
      by_contra hne
      exact h ((lane_ne_zero_iff i).mpr ⟨k, hk, by simpa using hne⟩)
    have h0 : x.testBit (8 * i) = false := by
      have := hall 0 (by norm_num)
      simpa using this
    rw [decide_eq_false h]
    simp [h0, hall 1 (by norm_num), hall 2 (by norm_num), hall 3 (by norm_num),
      hall 4 (by norm_num), hall 5 (by norm_num), hall 6 (by norm_num), hall 7 (by norm_num)]

theorem lane_and_one (w i : Nat) :
    lane i w &&& 1 = if w.testBit (8 * i) then 1 else 0 := by
  unfold lane
  rw [Nat.and_assoc, show ((255 : Nat) &&& 1) = 1 from rfl, Nat.and_one_is_mod]
  have hbit : w.testBit (8 * i) = (w >>> (8 * i)).testBit 0 := by
    simp [Nat.testBit_shiftRight]
  rw [hbit, Nat.testBit_zero]
  rcases Nat.mod_two_eq_zero_or_one (w >>> (8 * i)) with h | h <;> simp [h]

theorem decide_ne_eq_bne (a : Nat) : decide (a ≠ 0) = (a != 0) := by
  by_cases h : a = 0 <;> simp [h]

theorem countP_eq_sum_toNat (p : Nat → Bool) (l : List Nat) :
    l.countP p = (l.map (fun a => (p a).toNat)).sum := by
  induction l with
  | nil => simp
  | cons a l ih =>
    rw [List.countP_cons, List.map_cons, List.sum_cons, ih]
    cases h : p a
    · simp [h]
    · simp [h]
      omega

theorem mulsum_bits (b0 b1 b2 b3 b4 b5 b6 b7 : Bool) :
    ((packWordLe [b0.toNat, b1.toNat, b2.toNat, b3.toNat, b4.toNat, b5.toNat, b6.toNat,
      b7.toNat] * LOW_ONES) % 2 ^ 64) >>> 56 =
      b0.toNat + b1.toNat + b2.toNat + b3.toNat + b4.toNat + b5.toNat + b6.toNat +
        b7.toNat := by
  revert b0 b1 b2 b3 b4 b5 b6 b7
  decide

theorem lane_low_ones : ∀ i, i < 8 → lane i LOW_ONES = 1 := by decide

theorem count_nonzero_bytes_eq (x : Nat) :
    count_nonzero_bytes x = (List.range 8).countP (fun i => lane i x != 0) := by
  simp only [count_nonzero_bytes]
  set M := (((x ||| x >>> 4) ||| ((x ||| x >>> 4) >>> 2)) |||
    (((x ||| x >>> 4) ||| ((x ||| x >>> 4) >>> 2)) >>> 1)) &&& LOW_ONES with hMdef
  have hMlt : M < 2 ^ 64 := by
    have h1 : M ≤ LOW_ONES := Nat.and_le_right
    have h2 : LOW_ONES < 2 ^ 64 := by unfold LOW_ONES; norm_num
    omega
  have hlaneM : ∀ i, i < 8 → lane i M = (lane i x != 0).toNat := by
    intro i hi
    rw [hMdef, lane_and, lane_low_ones i hi, lane_and_one, cascade_testBit x i]
    rw [← decide_ne_eq_bne]
    cases h : decide (lane i x ≠ 0) <;> simp
  have hMpack : M = packWordLe [(lane 0 x != 0).toNat, (lane 1 x != 0).toNat,
      (lane 2 x != 0).toNat, (lane 3 x != 0).toNat, (lane 4 x != 0).toNat,
      (lane 5 x != 0).toNat, (lane 6 x != 0).toNat, (lane 7 x != 0).toNat] := by
    have hpl := pack_lanes 8 M (by norm_num at hMlt ⊢; exact hMlt)
    have h8 : List.range 8 = [0, 1, 2, 3, 4, 5, 6, 7] := rfl
    rw [h8] at hpl
    simp only [List.map_cons, List.map_nil] at hpl
    rw [← hpl, hlaneM 0 (by norm_num), hlaneM 1 (by norm_num), hlaneM 2 (by norm_num),
      hlaneM 3 (by norm_num), hlaneM 4 (by norm_num), hlaneM 5 (by norm_num),
      hlaneM 6 (by norm_num), hlaneM 7 (by norm_num)]
  rw [hMpack, mulsum_bits]
  rw [countP_eq_sum_toNat, show List.range 8 = [0, 1, 2, 3, 4, 5, 6, 7] from rfl]
  simp only [List.map_cons, List.map_nil, List.sum_cons, List.sum_nil]
  omega

theorem is_n_mask_lt (x : Nat) : is_n_mask x < 2 ^ 64 := by
  simp only [is_n_mask]
  have h1 : ∀ a : Nat, a &&& HIGH_BITS ≤ HIGH_BITS := fun a => Nat.and_le_right
  have h2 : HIGH_BITS < 2 ^ 64 := by unfold HIGH_BITS; norm_num
  exact lt_of_le_of_lt (h1 _) h2

theorem countP_zip_getD (p : Nat × Nat → Bool) :
    ∀ (l1 l2 : List Nat), l1.length = l2.length →
    (l1.zip l2).countP p =
      (List.range l1.length).countP (fun i => p (l1.getD i 0, l2.getD i 0)) := by
  intro l1
  induction l1 with
  | nil => intro l2 _; simp
  | cons a l1 ih =>
    intro l2 h
    cases l2 with
    | nil => simp at h
    | cons b l2 =>
      simp only [List.zip_cons_cons, List.length_cons]
      rw [List.countP_cons, List.range_succ_eq_map, List.countP_cons, List.countP_map,
        ih l2 (by simpa using h)]
      simp [Function.comp_def]

theorem wordDist_ge_diff (s1 s2 : List Nat) (h1 : s1.length = 8) (h2 : s2.length = 8)
    (hb1 : ∀ b ∈ s1, b < 256) (hb2 : ∀ b ∈ s2, b < 256) :
    (s1.zip s2).countP (fun p => p.1 != p.2) ≤ wordDist s1 s2 := by
  simp only [wordDist]
  rw [count_nonzero_bytes_eq, countP_zip_getD _ s1 s2 (by omega), h1]
  apply List.countP_mono_left
  intro i hi hpi
  have hi8 : i < 8 := by simpa using hi
  have hne : s1.getD i 0 ≠ s2.getD i 0 := by simpa using hpi
  have hlx : lane i (packWordLe s1 ^^^ packWordLe s2) = s1.getD i 0 ^^^ s2.getD i 0 := by
    rw [lane_xor, lane_pack s1 hb1 i (by omega), lane_pack s2 hb2 i (by omega)]
  rw [lane_or]
  simp only [bne_iff_ne, ne_eq]
  intro hz
  refine or_ne_zero_left _ ?_ hz
  rw [hlx]
  intro hx0
  exact hne (Nat.xor_eq_zero.mp hx0)

theorem chunksExact8_of_ge {l : List Nat} (h : 8 ≤ l.length) :
    chunksExact8 l = l.take 8 :: chunksExact8 (l.drop 8) := by
  rcases l with - | ⟨b0, l⟩
  · simp at h
  rcases l with - | ⟨b1, l⟩
  · simp at h
  rcases l with - | ⟨b2, l⟩
  · simp at h
  rcases l with - | ⟨b3, l⟩
  · simp at h
  rcases l with - | ⟨b4, l⟩
  · simp at h
  rcases l with - | ⟨b5, l⟩
  · simp at h
  rcases l with - | ⟨b6, l⟩
  · simp at h
  rcases l with - | ⟨b7, l⟩
  · simp at h
  rfl

theorem chunksExact8_of_lt {l : List Nat} (h : l.length < 8) :
    chunksExact8 l = [] := by
  rcases l with - | ⟨b0, l⟩
  · rfl
  rcases l with - | ⟨b1, l⟩
  · rfl
  rcases l with - | ⟨b2, l⟩
  · rfl
  rcases l with - | ⟨b3, l⟩
  · rfl
  rcases l with - | ⟨b4, l⟩
  · rfl
  rcases l with - | ⟨b5, l⟩
  · rfl
  rcases l with - | ⟨b6, l⟩
  · rfl
  rcases l with - | ⟨b7, l⟩
  · rfl
  simp only [List.length_cons] at h
  omega

theorem remainder8_of_ge {l : List Nat} (h : 8 ≤ l.length) :
    remainder8 l = remainder8 (l.drop 8) := by
  rcases l with - | ⟨b0, l⟩
  · simp at h
  rcases l with - | ⟨b1, l⟩
  · simp at h
  rcases l with - | ⟨b2, l⟩
  · simp at h
  rcases l with - | ⟨b3, l⟩
  · simp at h
  rcases l with - | ⟨b4, l⟩
  · simp at h
  rcases l with - | ⟨b5, l⟩
  · simp at h
  rcases l with - | ⟨b6, l⟩
  · simp at h
  rcases l with - | ⟨b7, l⟩
  · simp at h
  rfl

theorem remainder8_of_lt {l : List Nat} (h : l.length < 8) :
    remainder8 l = l := by
  rcases l with - | ⟨b0, l⟩
  · rfl
  rcases l with - | ⟨b1, l⟩
  · rfl
  rcases l with - | ⟨b2, l⟩
  · rfl
  rcases l with - | ⟨b3, l⟩
  · rfl
  rcases l with - | ⟨b4, l⟩
  · rfl
  rcases l with - | ⟨b5, l⟩
  · rfl
  rcases l with - | ⟨b6, l⟩
  · rfl
  rcases l with - | ⟨b7, l⟩
  · rfl
  simp only [List.length_cons] at h
  omega

theorem hamming_distance_block {s1 s2 : List Nat} (h1 : 8 ≤ s1.length) (h2 : 8 ≤ s2.length) :
    hamming_distance s1 s2 =
      wordDist (s1.take 8) (s2.take 8) + hamming_distance (s1.drop 8) (s2.drop 8) := by
  unfold hamming_distance
  rw [chunksExact8_of_ge h1, chunksExact8_of_ge h2, remainder8_of_ge h1, remainder8_of_ge h2]
  simp only [List.zip_cons_cons, List.map_cons, List.sum_cons]
  omega

theorem hamming_distance_small {s1 s2 : List Nat} (h1 : s1.length < 8) (h2 : s2.length < 8) :
    hamming_distance s1 s2 =
      (s1.zip s2).countP (fun p => p.1 != p.2 || p.1 == 78 || p.2 == 78) := by
  unfold hamming_distance
  rw [chunksExact8_of_lt h1, chunksExact8_of_lt h2, remainder8_of_lt h1, remainder8_of_lt h2]
  simp

theorem hamming_ge_diff : ∀ (n : Nat) (s1 s2 : List Nat), s1.length ≤ n →
    s1.length = s2.length → (∀ b ∈ s1, b < 256) → (∀ b ∈ s2, b < 256) →
    (s1.zip s2).countP (fun p => p.1 != p.2) ≤ hamming_distance s1 s2 := by
  intro n
  induction n with
  | zero =>
    intro s1 s2 hn hlen _ _
    rw [hamming_distance_small (by omega) (by omega)]
    apply List.countP_mono_left
    intro p _ hp
    simp only [hp, Bool.true_or, Bool.or_true]
  | succ n ih =>
    intro s1 s2 hn hlen hb1 hb2
    by_cases h8 : 8 ≤ s1.length
    · have h8' : 8 ≤ s2.length := by omega
      rw [hamming_distance_block h8 h8']
      have hsplit : s1.zip s2 =
          (s1.take 8).zip (s2.take 8) ++ (s1.drop 8).zip (s2.drop 8) := by
        conv_lhs => rw [← List.take_append_drop 8 s1, ← List.take_append_drop 8 s2]
        rw [List.zip_append (by simp [List.length_take]; omega)]
      rw [hsplit, List.countP_append]
      have ht := wordDist_ge_diff (s1.take 8) (s2.take 8)
        (by simp [List.length_take]; omega) (by simp [List.length_take]; omega)
        (fun b hb => hb1 b (List.take_subset _ _ hb))
        (fun b hb => hb2 b (List.take_subset _ _ hb))
      have hd := ih (s1.drop 8) (s2.drop 8)
        (by simp [List.length_drop]; omega) (by simp [List.length_drop]; omega)
        (fun b hb => hb1 b (List.drop_subset _ _ hb))
        (fun b hb => hb2 b (List.drop_subset _ _ hb))
      omega
    · push_neg at h8
      rw [hamming_distance_small h8 (by omega)]
      apply List.countP_mono_left
      intro p _ hp
      simp only [hp, Bool.true_or, Bool.or_true]

theorem hamming_ge_diffCount (s1 s2 : List Nat) (hlen : s1.length = s2.length)
    (hb1 : ∀ b ∈ s1, b < 256) (hb2 : ∀ b ∈ s2, b < 256) :
    (s1.zip s2).countP (fun p => p.1 != p.2) ≤ hamming_distance s1 s2 :=
  hamming_ge_diff s1.length s1 s2 le_rfl hlen hb1 hb2

theorem ne_countP_pos : ∀ (a b : List Nat), a ≠ b → a.length = b.length →
    1 ≤ (a.zip b).countP (fun p => p.1 != p.2) := by
  intro a
  induction a with
  | nil =>
    intro b hne hlen
    cases b with
    | nil => exact absurd rfl hne
    | cons y b => simp at hlen
  | cons x a ih =>
    intro b hne hlen
    cases b with
    | nil => simp at hlen
    | cons y b =>
      by_cases hxy : x = y
      · subst hxy
        have hne2 : a ≠ b := fun h => hne (by rw [h])
        have := ih b hne2 (by simpa using hlen)
        simp only [List.zip_cons_cons, List.countP_cons]
        omega
      · rw [List.zip_cons_cons, List.countP_cons, if_pos (by simpa using hxy)]
        omega

theorem chunks_all_ne_ge (u w : List Nat) (k cs : Nat) (hlen : w.length = u.length)
    (hkcs : k * cs ≤ u.length) :
    ∀ (d j : Nat), j + d = k →
      (∀ idx, j ≤ idx → idx < k →
        sliceRange u (get_chunk_range u.length k cs idx).1
            (get_chunk_range u.length k cs idx).2 ≠
          sliceRange w (get_chunk_range u.length k cs idx).1
            (get_chunk_range u.length k cs idx).2) →
      d ≤ ((u.drop (j * cs)).zip (w.drop (j * cs))).countP (fun p => p.1 != p.2) := by
  intro d
  induction d with
  | zero => intro j _ _; exact Nat.zero_le _
  | succ d ih =>
    intro j hjd hne
    have hjk : j < k := by omega
    by_cases hlast : j = k - 1
    · have hd0 : d = 0 := by omega
      subst hd0
      have hr : get_chunk_range u.length k cs j = (j * cs, u.length) := by
        simp [get_chunk_range, hlast]
      have hsu : sliceRange u (j * cs) u.length = u.drop (j * cs) := by
        unfold sliceRange
        apply List.take_of_length_le
        simp
      have hsw : sliceRange w (j * cs) u.length = w.drop (j * cs) := by
        unfold sliceRange
        apply List.take_of_length_le
        simp [hlen]
      have h1 := hne j le_rfl hjk
      rw [hr] at h1
      rw [hsu, hsw] at h1
      exact ne_countP_pos _ _ h1 (by simp [hlen])
    · have hr : get_chunk_range u.length k cs j = (j * cs, (j + 1) * cs) := by
        simp [get_chunk_range, hlast]
      have hsm : (j + 1) * cs = j * cs + cs := Nat.succ_mul j cs
      have hsl : ∀ (l : List Nat), sliceRange l (j * cs) ((j + 1) * cs) =
          (l.drop (j * cs)).take cs := by
        intro l
        unfold sliceRange
        congr 1
        omega
      have hjc : (j + 1) * cs ≤ u.length :=
        le_trans (Nat.mul_le_mul_right cs (by omega : j + 1 ≤ k)) hkcs
      have hAsplit : u.drop (j * cs) =
          ((u.drop (j * cs)).take cs) ++ (u.drop ((j + 1) * cs)) := by
        conv_lhs => rw [← List.take_append_drop cs (u.drop (j * cs))]
        congr 1
        rw [List.drop_drop]
        congr 1
        omega
      have hBsplit : w.drop (j * cs) =
          ((w.drop (j * cs)).take cs) ++ (w.drop ((j + 1) * cs)) := by
        conv_lhs => rw [← List.take_append_drop cs (w.drop (j * cs))]
        congr 1
        rw [List.drop_drop]
        congr 1
        omega
      rw [hAsplit, hBsplit, List.zip_append (by simp [hlen]), List.countP_append]
      have h1 : 1 ≤ (((u.drop (j * cs)).take cs).zip
          ((w.drop (j * cs)).take cs)).countP (fun p => p.1 != p.2) := by
        have hne1 := hne j le_rfl hjk
        rw [hr] at hne1
        rw [hsl u, hsl w] at hne1
        exact ne_countP_pos _ _ hne1 (by simp [hlen])
      have h2 := ih (j + 1) (by omega) (fun idx hj hk2 => hne idx (by omega) hk2)
      omega

theorem hamming_le_matching_chunk {u w : List Nat} {m : Nat}
    (hlen : w.length = u.length) (hbu : ∀ b ∈ u, b < 256) (hbw : ∀ b ∈ w, b < 256)
    (_hk : m + 1 ≤ u.length) (hd : hamming_distance u w ≤ m) :
    has_matching_chunk u w (m + 1) (u.length / (m + 1)) = true := by
  by_contra hnot
  have hall : ∀ idx, idx < m + 1 →
      sliceRange u (get_chunk_range u.length (m + 1) (u.length / (m + 1)) idx).1
          (get_chunk_range u.length (m + 1) (u.length / (m + 1)) idx).2 ≠
        sliceRange w (get_chunk_range u.length (m + 1) (u.length / (m + 1)) idx).1
          (get_chunk_range u.length (m + 1) (u.length / (m + 1)) idx).2 := by
    intro idx hidx heq
    apply hnot
    unfold has_matching_chunk
    rw [List.any_eq_true]
    exact ⟨idx, List.mem_range.mpr hidx, by simp [heq]⟩
  have hkcs : (m + 1) * (u.length / (m + 1)) ≤ u.length := by
    rw [Nat.mul_comm]
    exact Nat.div_mul_le_self u.length (m + 1)
  have hcount := chunks_all_ne_ge u w (m + 1) (u.length / (m + 1)) hlen hkcs
    (m + 1) 0 (by omega) (fun idx _ hk2 => hall idx hk2)
  simp only [Nat.zero_mul, List.drop_zero] at hcount
  have hle := hamming_ge_diffCount u w (by omega) hbu hbw
  omega

theorem mem_windowsList {n : Nat} {l w : List Nat} :
    w ∈ windowsList n l ↔ ∃ i, i < l.length + 1 - n ∧ w = (l.drop i).take n := by
  simp only [windowsList, List.mem_map, List.mem_range]
  constructor
  · rintro ⟨i, hi, hw⟩; exact ⟨i, hi, hw.symm⟩
  · rintro ⟨i, hi, hw⟩; exact ⟨i, hi, hw.symm⟩

theorem window_eq_iff_substring {u r : List Nat} :
    ((windowsList u.length r).any (fun w => w == u) = true) ↔ ∃ s t, r = s ++ u ++ t := by
  rw [List.any_eq_true]
  constructor
  · rintro ⟨w, hw, hbeq⟩
    rcases mem_windowsList.mp hw with ⟨i, _, hweq⟩
    have htake : (r.drop i).take u.length = u := by
      rw [← hweq]; simpa using hbeq
    refine ⟨r.take i, (r.drop i).drop u.length, ?_⟩
    conv_lhs => rw [← List.take_append_drop i r, ← List.take_append_drop u.length (r.drop i)]
    rw [htake, List.append_assoc]
  · rintro ⟨s, t, rfl⟩
    refine ⟨u, ?_, by simp⟩
    apply mem_windowsList.mpr
    refine ⟨s.length, ?_, ?_⟩
    · simp only [List.length_append]
      omega
    · rw [show s ++ u ++ t = s ++ (u ++ t) from List.append_assoc s u t,
        List.drop_left, List.take_left]

theorem umi_zero_iff {u r : List Nat} (hu : u ≠ []) :
    (is_umi_in_read u r 0 = some true) ↔ ∃ s t, r = s ++ u ++ t := by
  have hu0 : u.length ≠ 0 := by simpa [List.length_eq_zero] using hu
  simp only [is_umi_in_read]
  by_cases hlt : r.length < u.length
  · rw [if_pos hlt]
    constructor
    · intro h; simp at h
    · rintro ⟨s, t, rfl⟩
      exfalso
      simp only [List.length_append] at hlt
      omega
  · rw [if_neg hlt, if_pos trivial, if_neg hu0]
    simp only [Option.some.injEq]
    exact window_eq_iff_substring

theorem umi_pos_iff {u r : List Nat} {m : Nat} (hm : 1 ≤ m) (hm32 : m + 1 < 2 ^ 32)
    (hu : u ≠ []) (hbu : ∀ b ∈ u, b < 256) (hbr : ∀ b ∈ r, b < 256) :
    (is_umi_in_read u r m = some true) ↔
      ∃ i, i + u.length ≤ r.length ∧
        hamming_distance u ((r.drop i).take u.length) ≤ m := by
  have hm0 : m ≠ 0 := by omega
  have hu0 : u.length ≠ 0 := by simpa [List.length_eq_zero] using hu
  simp only [is_umi_in_read]
  by_cases hlt : r.length < u.length
  · rw [if_pos hlt]
    constructor
    · intro h; simp at h
    · rintro ⟨i, hi, _⟩; omega
  · rw [if_neg hlt, if_neg hm0, if_neg (by omega : ¬ m + 1 ≥ 2 ^ 32)]
    by_cases hfall : u.length < m + 1
    · rw [if_pos hfall, if_neg hu0]
      simp only [Option.some.injEq]
      rw [List.any_eq_true]
      constructor
      · rintro ⟨w, hw, hd⟩
        rcases mem_windowsList.mp hw with ⟨i, hi, rfl⟩
        exact ⟨i, by omega, by simpa using hd⟩
      · rintro ⟨i, hi, hd⟩
        exact ⟨(r.drop i).take u.length, mem_windowsList.mpr ⟨i, by omega, rfl⟩,
          by simpa using hd⟩
    · rw [if_neg hfall]
      simp only [Option.some.injEq]
      rw [List.any_eq_true]
      constructor
      · rintro ⟨w, hw, hcond⟩
        rcases mem_windowsList.mp hw with ⟨i, hi, rfl⟩
        rw [Bool.and_eq_true] at hcond
        exact ⟨i, by omega, by simpa using hcond.2⟩
      · rintro ⟨i, hi, hd⟩
        have hwlen : ((r.drop i).take u.length).length = u.length := by
          simp only [List.length_take, List.length_drop]
          omega
        have hwb : ∀ b ∈ (r.drop i).take u.length, b < 256 :=
          fun b hb => hbr b (List.drop_subset _ _ (List.take_subset _ _ hb))
        have hchunk := hamming_le_matching_chunk hwlen hbu hwb (by omega) hd
        refine ⟨(r.drop i).take u.length, mem_windowsList.mpr ⟨i, by omega, rfl⟩, ?_⟩
        rw [Bool.and_eq_true]
        exact ⟨hchunk, by simpa using hd⟩

theorem umi_pos_true_nonempty {u r : List Nat} {m : Nat} (hm : 1 ≤ m)
    (h : is_umi_in_read u r m = some true) : u ≠ [] := by
  intro hnil
  subst hnil
  simp only [is_umi_in_read, List.length_nil] at h
  rw [if_neg (by omega), if_neg (by omega)] at h
  by_cases hg : m + 1 ≥ 2 ^ 32
  · rw [if_pos hg] at h
    exact Option.noConfusion h
  · rw [if_neg hg] at h
    simp at h

/-! ## Batch pipeline lemmas -/

theorem classifyAll_length {maxM umiLen : Nat} :
    ∀ {batch : List FastqRecord} {res : List Bool},
      classifyAll batch maxM umiLen = some res → res.length = batch.length := by
  intro batch
  induction batch with
  | nil =>
    intro res h
    simp only [classifyAll, Option.some.injEq] at h
    subst h
    rfl
  | cons r rest ih =>
    intro res h
    simp only [classifyAll] at h
    split at h
    · rename_i b bs hc hca
      simp only [Option.some.injEq] at h
      subst h
      simp [ih hca]
    · exact Option.noConfusion h

theorem classifyAll_append (l1 l2 : List FastqRecord) (maxM umiLen : Nat) :
    classifyAll (l1 ++ l2) maxM umiLen =
      match classifyAll l1 maxM umiLen, classifyAll l2 maxM umiLen with
      | some a, some b => some (a ++ b)
      | _, _ => none := by
  induction l1 with
  | nil =>
    simp only [List.nil_append, classifyAll]
    cases classifyAll l2 maxM umiLen <;> rfl
  | cons r rest ih =>
    simp only [List.cons_append, classifyAll, List.append_eq, ih]
    cases classify r maxM umiLen <;> cases classifyAll rest maxM umiLen <;>
      cases classifyAll l2 maxM umiLen <;> rfl

theorem serialWrite_kw (pairs : List (FastqRecord × Bool)) :
    ∀ kw rw removed kept, (serialWrite pairs kw rw removed kept).1 =
      kw ++ (pairs.filter (fun p => !p.2)).map (fun p => p.1) := by
  induction pairs with
  | nil => intro kw rw r k; simp [serialWrite]
  | cons p rest ih =>
    intro kw rw r k
    obtain ⟨rec, matched⟩ := p
    cases matched <;> simp [serialWrite, ih]

theorem serialWrite_rw (pairs : List (FastqRecord × Bool)) :
    ∀ kw rw removed kept, (serialWrite pairs kw rw removed kept).2.1 =
      rw ++ (pairs.filter (fun p => p.2)).map (fun p => p.1) := by
  induction pairs with
  | nil => intro kw rw r k; simp [serialWrite]
  | cons p rest ih =>
    intro kw rw r k
    obtain ⟨rec, matched⟩ := p
    cases matched <;> simp [serialWrite, ih]

theorem serialWrite_removed (pairs : List (FastqRecord × Bool)) :
    ∀ kw rw removed kept, (serialWrite pairs kw rw removed kept).2.2.1 =
      removed + pairs.countP (fun p => p.2) := by
  induction pairs with
  | nil => intro kw rw r k; simp [serialWrite]
  | cons p rest ih =>
    intro kw rw r k
    obtain ⟨rec, matched⟩ := p
    cases matched
    all_goals simp [serialWrite, ih, List.countP_cons]
    all_goals omega

theorem serialWrite_kept (pairs : List (FastqRecord × Bool)) :
    ∀ kw rw removed kept, (serialWrite pairs kw rw removed kept).2.2.2 =
      kept + pairs.countP (fun p => !p.2) := by
  induction pairs with
  | nil => intro kw rw r k; simp [serialWrite]
  | cons p rest ih =>
    intro kw rw r k
    obtain ⟨rec, matched⟩ := p
    cases matched
    all_goals simp [serialWrite, ih, List.countP_cons]
    all_goals omega

theorem process_batch_eq (batch kw rw : List FastqRecord) (maxM umiLen : Nat) :
    process_batch batch kw rw maxM umiLen =
      match classifyAll batch maxM umiLen with
      | none => none
      | some results => some (serialWrite (batch.zip results) kw rw 0 0) := by
  unfold process_batch
  by_cases hb : batch.isEmpty
  · rw [if_pos hb]
    have hnil : batch = [] := List.isEmpty_iff.mp hb
    subst hnil
    simp [classifyAll, serialWrite]
  · rw [if_neg hb]

theorem process_batch_none {batch : List FastqRecord} {maxM umiLen : Nat}
    (kw rw : List FastqRecord) (h : classifyAll batch maxM umiLen = none) :
    process_batch batch kw rw maxM umiLen = none := by
  rw [process_batch_eq, h]

theorem process_batch_some {batch : List FastqRecord} {maxM umiLen : Nat} {res : List Bool}
    (kw rw : List FastqRecord) (h : classifyAll batch maxM umiLen = some res) :
    process_batch batch kw rw maxM umiLen =
      some (kw ++ ((batch.zip res).filter (fun p => !p.2)).map (fun p => p.1),
            rw ++ ((batch.zip res).filter (fun p => p.2)).map (fun p => p.1),
            (batch.zip res).countP (fun p => p.2),
            (batch.zip res).countP (fun p => !p.2)) := by
  rw [process_batch_eq, h]
  have h1 := serialWrite_kw (batch.zip res) kw rw 0 0
  have h2 := serialWrite_rw (batch.zip res) kw rw 0 0
  have h3 := serialWrite_removed (batch.zip res) kw rw 0 0
  have h4 := serialWrite_kept (batch.zip res) kw rw 0 0
  simp only [Nat.zero_add] at h3 h4
  have hsw : serialWrite (batch.zip res) kw rw 0 0 =
      (kw ++ ((batch.zip res).filter (fun p => !p.2)).map (fun p => p.1),
       rw ++ ((batch.zip res).filter (fun p => p.2)).map (fun p => p.1),
       (batch.zip res).countP (fun p => p.2),
       (batch.zip res).countP (fun p => !p.2)) :=
    Prod.ext h1 (Prod.ext h2 (Prod.ext h3 h4))
  exact congrArg some hsw

theorem process_loop_eq (batchSize maxM umiLen : Nat) (hbs : 0 < batchSize) :
    ∀ (records batch : List FastqRecord) (total removed kept : Nat)
      (kw rw : List FastqRecord), batch.length < batchSize →
      process_loop records batchSize maxM umiLen batch total removed kept kw rw =
        match classifyAll (batch ++ records) maxM umiLen with
        | none => none
        | some res =>
          some (total + records.length,
            removed + ((batch ++ records).zip res).countP (fun p => p.2),
            kept + ((batch ++ records).zip res).countP (fun p => !p.2),
            kw ++ (((batch ++ records).zip res).filter (fun p => !p.2)).map (fun p => p.1),
            rw ++ (((batch ++ records).zip res).filter (fun p => p.2)).map (fun p => p.1)) := by
  intro records
  induction records with
  | nil =>
    intro batch total removed kept kw rw _
    simp only [process_loop, List.append_nil]
    cases hca : classifyAll batch maxM umiLen with
    | none => rw [process_batch_none kw rw hca]
    | some res =>
      rw [process_batch_some kw rw hca]
      dsimp only
      simp only [List.length_nil, Nat.add_zero]
  | cons r rest ih =>
    intro batch total removed kept kw rw hlt
    simp only [process_loop]
    by_cases hfull : batchSize ≤ (batch ++ [r]).length
    · rw [if_pos hfull]
      have hsplit : batch ++ r :: rest = (batch ++ [r]) ++ rest := by simp
      rw [hsplit, classifyAll_append (batch ++ [r]) rest maxM umiLen]
      cases hca : classifyAll (batch ++ [r]) maxM umiLen with
      | none =>
        rw [process_batch_none kw rw hca]
      | some res1 =>
        rw [process_batch_some kw rw hca]
        dsimp only
        rw [ih [] (total + 1) _ _ _ _ (by simpa using hbs)]
        simp only [List.nil_append]
        cases hcr : classifyAll rest maxM umiLen with
        | none => rfl
        | some res2 =>
          dsimp only
          have hlen1 : res1.length = (batch ++ [r]).length := classifyAll_length hca
          have hzip : ((batch ++ [r]) ++ rest).zip (res1 ++ res2) =
              (batch ++ [r]).zip res1 ++ rest.zip res2 := List.zip_append hlen1.symm
          rw [hzip]
          simp only [List.countP_append, List.filter_append, List.map_append,
            List.length_cons, List.append_assoc]
          refine congrArg some ?_
          simp only [Prod.mk.injEq, and_true, true_and]
          omega
    · rw [if_neg hfull]
      rw [ih (batch ++ [r]) (total + 1) removed kept kw rw (by omega)]
      have hsplit : batch ++ r :: rest = (batch ++ [r]) ++ rest := by simp
      rw [hsplit]
      cases hcr : classifyAll ((batch ++ [r]) ++ rest) maxM umiLen with
      | none => rfl
      | some res =>
        dsimp only
        refine congrArg some ?_
        simp only [Prod.mk.injEq, List.length_cons, and_true, true_and]
        omega

theorem countP_bool_split (l : List (FastqRecord × Bool)) :
    l.countP (fun p => p.2) + l.countP (fun p => !p.2) = l.length := by
  induction l with
  | nil => simp
  | cons p rest ih =>
    cases hp : p.2
    all_goals simp [List.countP_cons, hp]
    all_goals omega

/-! ## Claims -/

/-- C1, counterexample: the claim "is_umi_in_read(umi, read, maxMismatches)
is true iff some window has ambiguity-penalty Hamming distance at most
maxMismatches" is false as stated.  At `umi = "N"`, `read = "N"`,
`maxMismatches = 0` the function returns true although the only window has
ambiguity-penalty distance 1; at `umi = "nn"`, `read = "nn"`,
`maxMismatches = 1` it returns true although the only window has
ambiguity-penalty distance 2; at `umi = "A"`, `read = "A"`,
`maxMismatches = u32::MAX` a window at distance 0 exists, yet the u32
computation `max_mismatches + 1` overflows and the function panics instead
of returning true; and for an empty `umi` it panics instead of returning a
boolean. -/
theorem umi_in_read_ambiguity_counterexample :
    is_umi_in_read [78] [78] 0 = some true ∧
    (∀ w ∈ windowsList 1 [78], ¬ specHammingDistance [78] w ≤ 0) ∧
    is_umi_in_read [110, 110] [110, 110] 1 = some true ∧
    (∀ w ∈ windowsList 2 [110, 110], ¬ specHammingDistance [110, 110] w ≤ 1) ∧
    specHammingDistance [65] [65] = 0 ∧
    is_umi_in_read [65] [65] (2 ^ 32 - 1) = none ∧
    is_umi_in_read ([] : List Nat) [] 0 = none := by decide

/-- C1, amended: for every non-empty byte sequence `umi` and byte sequence
`read`, over the `u32` domain of `maxMismatches`: with `maxMismatches = 0`,
`is_umi_in_read` returns true iff `umi` occurs in `read` as an exact
contiguous byte substring; with `1 ≤ maxMismatches < u32::MAX`, it returns
true iff some contiguous window of `read` of length `len(umi)` has
`hamming_distance` (the implemented distance, which penalizes only
uppercase `N` and carries the SWAR lane artifacts) at most `maxMismatches`;
and with `maxMismatches = u32::MAX` (whenever a window fits) the u32
computation `max_mismatches + 1` overflows and the function panics instead
of returning a boolean. -/
theorem umi_in_read_amended (umi read : List Nat) (m : Nat) (hu : umi ≠ [])
    (hbu : ∀ b ∈ umi, b < 256) (hbr : ∀ b ∈ read, b < 256) :
    (m = 0 → (is_umi_in_read umi read 0 = some true ↔ ∃ s t, read = s ++ umi ++ t)) ∧
    (1 ≤ m → m + 1 < 2 ^ 32 → (is_umi_in_read umi read m = some true ↔
      ∃ i, i + umi.length ≤ read.length ∧
        hamming_distance umi ((read.drop i).take umi.length) ≤ m)) ∧
    (m + 1 = 2 ^ 32 → umi.length ≤ read.length →
      is_umi_in_read umi read m = none) := by
  refine ⟨?_, ?_, ?_⟩
  · intro _
    exact umi_zero_iff hu
  · intro hm hm32
    exact umi_pos_iff hm hm32 hu hbu hbr
  · intro hm32 hfit
    simp only [is_umi_in_read]
    rw [if_neg (by omega : ¬ read.length < umi.length), if_neg (by omega : ¬ m = 0),
      if_pos (by omega : m + 1 ≥ 2 ^ 32)]

/-- C1, witness for the amended theorem at concrete inputs, one per
regime of the tolerance. -/
theorem umi_in_read_amended_witness :
    (is_umi_in_read [65, 66] [67, 65, 66] 0 = some true ↔
      ∃ s t, ([67, 65, 66] : List Nat) = s ++ [65, 66] ++ t) ∧
    (is_umi_in_read [65, 66] [67, 65, 66] 2 = some true ↔
      ∃ i, i + 2 ≤ 3 ∧ hamming_distance [65, 66] (([67, 65, 66].drop i).take 2) ≤ 2) ∧
    is_umi_in_read [65, 66] [67, 65, 66] (2 ^ 32 - 1) = none :=
  ⟨(umi_in_read_amended [65, 66] [67, 65, 66] 0 (by decide) (by decide) (by decide)).1 rfl,
   (umi_in_read_amended [65, 66] [67, 65, 66] 2 (by decide) (by decide) (by decide)).2.1
     (by decide) (by decide),
   (umi_in_read_amended [65, 66] [67, 65, 66] (2 ^ 32 - 1) (by decide) (by decide)
     (by decide)).2.2 (by norm_num) (by decide)⟩

/-- C2, counterexample: monotonic relaxation fails as stated.  With
`umi = "NN"`, `read = "NN"` the exact zero-mismatch scan matches byte-for-
byte, but with tolerance 1 the pigeonhole path computes the N-penalised
distance 2 > 1 and reports no match; and with `umi = "A"`,
`read = "AA"` the match found at tolerance 1 is not preserved at
tolerance `u32::MAX`, where the u32 computation `max_mismatches + 1`
overflows and the function panics instead of returning true. -/
theorem umi_in_read_monotone_counterexample :
    is_umi_in_read [78, 78] [78, 78] 0 = some true ∧
    is_umi_in_read [78, 78] [78, 78] 1 = some false ∧
    is_umi_in_read [65] [65, 65] 1 = some true ∧
    is_umi_in_read [65] [65, 65] (2 ^ 32 - 1) = none := by decide

/-- C2, amended: monotonic relaxation holds for tolerances that stay in the
distance-based, non-overflowing regime: for all byte sequences and
`1 ≤ m1 ≤ m2 < u32::MAX`, if `is_umi_in_read umi read m1` returns true
then so does `is_umi_in_read umi read m2`. -/
theorem umi_in_read_monotone_pos (umi read : List Nat) (m1 m2 : Nat) (h1 : 1 ≤ m1)
    (h12 : m1 ≤ m2) (hm32 : m2 + 1 < 2 ^ 32) (hbu : ∀ b ∈ umi, b < 256)
    (hbr : ∀ b ∈ read, b < 256)
    (htrue : is_umi_in_read umi read m1 = some true) :
    is_umi_in_read umi read m2 = some true := by
  have hu : umi ≠ [] := umi_pos_true_nonempty h1 htrue
  have hm2 : 1 ≤ m2 := le_trans h1 h12
  rcases (umi_pos_iff h1 (by omega) hu hbu hbr).mp htrue with ⟨i, hi, hd⟩
  exact (umi_pos_iff hm2 hm32 hu hbu hbr).mpr ⟨i, hi, le_trans hd h12⟩

/-- C2, witness for the amended theorem at a concrete input. -/
theorem umi_in_read_monotone_pos_witness :
    is_umi_in_read [65] [66, 65] 2 = some true :=
  umi_in_read_monotone_pos [65] [66, 65] 1 2 (by decide) (by decide) (by decide)
    (by decide) (by decide) (by decide)

/-- C3: the code contradicts the claimed (and self-documented) distance
rule.  A lowercase ambiguous base `'n'` (110) compared against itself
yields distance 0 although the rule demands 1 (uppercase `'N'` = 78 does
yield 1), and a `'NO'` prefix compared against itself yields 2 although
only the `'N'` position should count: the `is_n_mask` borrow chain falsely
flags an `'O'` (79) lane that follows an `'N'` lane. -/
theorem hamming_distance_ambiguity_bug_eval :
    hamming_distance [110] [110] = 0 ∧ specHammingDistance [110] [110] = 1 ∧
    hamming_distance [78] [78] = 1 ∧
    hamming_distance [78, 79, 65, 65, 65, 65, 65, 65]
      [78, 79, 65, 65, 65, 65, 65, 65] = 2 ∧
    specHammingDistance [78, 79, 65, 65, 65, 65, 65, 65]
      [78, 79, 65, 65, 65, 65, 65, 65] = 1 := by decide

/-- C4: the word-packed path does not match the naive per-byte loop.  On
the 8-byte input `"NOAAAAAA"` compared against itself the SWAR path counts
2 mismatch lanes (the `is_n_mask` subtraction borrows out of the zeroed
`'N'` lane and falsely flags the adjacent `'O'` lane) while the naive
per-byte rule — identical to the source's own remainder loop — counts 1. -/
theorem hamming_distance_swar_naive_mismatch :
    hamming_distance [78, 79, 65, 65, 65, 65, 65, 65]
      [78, 79, 65, 65, 65, 65, 65, 65] = 2 ∧
    naiveHammingDistance [78, 79, 65, 65, 65, 65, 65, 65]
      [78, 79, 65, 65, 65, 65, 65, 65] = 1 := by decide

/-- C5: for every non-empty `umi` and every `read`,
`is_umi_in_read umi read 0` returns true iff `umi` occurs in `read` as an
exact contiguous byte substring. -/
theorem umi_in_read_zero_exact_substring (umi read : List Nat) (hu : umi ≠ []) :
    is_umi_in_read umi read 0 = some true ↔ ∃ s t, read = s ++ umi ++ t :=
  umi_zero_iff hu

/-- C5, witness at a concrete input. -/
theorem umi_in_read_zero_exact_substring_witness :
    is_umi_in_read [65, 67] [71, 65, 67, 71] 0 = some true ↔
      ∃ s t, ([71, 65, 67, 71] : List Nat) = s ++ [65, 67] ++ t :=
  umi_in_read_zero_exact_substring [65, 67] [71, 65, 67, 71] (by decide)

/-- C6: whenever the pipeline completes on a record stream, the returned
statistics satisfy `total = kept + removed`. -/
theorem process_fastq_total_eq_kept_add_removed (records : List FastqRecord)
    (maxM umiLen total removed kept : Nat) (kw rw : List FastqRecord)
    (h : process_fastq records maxM umiLen = some (total, removed, kept, kw, rw)) :
    total = kept + removed := by
  unfold process_fastq process_fastq_with at h
  rw [process_loop_eq BATCH_SIZE maxM umiLen (by norm_num [BATCH_SIZE]) records [] 0 0 0
    [] [] (by simp [BATCH_SIZE])] at h
  simp only [List.nil_append] at h
  cases hca : classifyAll records maxM umiLen with
  | none => rw [hca] at h; exact absurd h (by simp)
  | some res =>
    rw [hca] at h
    simp only [Option.some.injEq, Prod.mk.injEq, Nat.zero_add] at h
    obtain ⟨ht, hr, hk, -, -⟩ := h
    have hsplit := countP_bool_split (records.zip res)
    have hlenr : res.length = records.length := classifyAll_length hca
    have hzlen : (records.zip res).length = records.length := by
      simp [List.length_zip, hlenr]
    omega

/-- C6, witness: a one-record stream whose record is kept. -/
theorem process_fastq_total_witness : (1 : Nat) = 1 + 0 :=
  process_fastq_total_eq_kept_add_removed
    [⟨[114, 49, 58, 65, 67, 71, 84], [65, 65, 65, 65], none⟩] 0 4 1 0 1
    [⟨[114, 49, 58, 65, 67, 71, 84], [65, 65, 65, 65], none⟩] [] (by decide)

/-- C7: batching is transparent — for every record stream and any two
positive batch sizes the pipeline produces identical results (statistics,
routing, and per-sink output order). -/
theorem process_fastq_batch_transparent (records : List FastqRecord)
    (b1 b2 maxM umiLen : Nat) (h1 : 0 < b1) (h2 : 0 < b2) :
    process_fastq_with b1 records maxM umiLen =
      process_fastq_with b2 records maxM umiLen := by
  unfold process_fastq_with
  rw [process_loop_eq b1 maxM umiLen h1 records [] 0 0 0 [] [] (by simpa using h1),
      process_loop_eq b2 maxM umiLen h2 records [] 0 0 0 [] [] (by simpa using h2)]

/-- C7, witness: batch sizes 1 and 2 agree on a two-record stream. -/
theorem process_fastq_batch_transparent_witness :
    process_fastq_with 1
      [⟨[114, 49, 58, 65, 67, 71, 84], [88, 88, 65, 67, 71, 84, 89, 89], none⟩,
       ⟨[114, 50, 58, 84, 84, 84, 84], [65, 65, 65, 65, 65, 65, 65, 65], none⟩] 0 4 =
    process_fastq_with 2
      [⟨[114, 49, 58, 65, 67, 71, 84], [88, 88, 65, 67, 71, 84, 89, 89], none⟩,
       ⟨[114, 50, 58, 84, 84, 84, 84], [65, 65, 65, 65, 65, 65, 65, 65], none⟩] 0 4 :=
  process_fastq_batch_transparent
    [⟨[114, 49, 58, 65, 67, 71, 84], [88, 88, 65, 67, 71, 84, 89, 89], none⟩,
     ⟨[114, 50, 58, 84, 84, 84, 84], [65, 65, 65, 65, 65, 65, 65, 65], none⟩]
    1 2 0 4 (by decide) (by decide)

/-- C8: a record whose header yields no extractable UMI token is classified
"not matched" (no error), routed to the kept sink, and counts towards the
kept counter. -/
theorem no_umi_record_kept (r : FastqRecord) (maxM umiLen : Nat)
    (kw rw : List FastqRecord)
    (h : extract_umi_from_header r.head umiLen = ExtractOutcome.noUmi) :
    classify r maxM umiLen = some false ∧
    process_batch [r] kw rw maxM umiLen = some (kw ++ [r], rw, 0, 1) := by
  have hc : classify r maxM umiLen = some false := by
    unfold classify
    rw [h]
  refine ⟨hc, ?_⟩
  have hca : classifyAll [r] maxM umiLen = some [false] := by
    simp [classifyAll, hc]
  rw [process_batch_some kw rw hca]
  simp

/-- C8, witness: an invalid-UTF-8 header record is kept without error. -/
theorem no_umi_record_kept_witness :
    classify ⟨[255], [65, 65], none⟩ 0 4 = some false ∧
    process_batch [⟨[255], [65, 65], none⟩] [] [] 0 4 =
      some ([⟨[255], [65, 65], none⟩], [], 0, 1) :=
  no_umi_record_kept ⟨[255], [65, 65], none⟩ 0 4 [] [] (by decide)

/-- C9: the extractor returns either no UMI, or a token whose byte length
equals the expected length with no lowercase ASCII letters; and whenever
the header yields a candidate token of the wrong byte length it panics
instead of returning. -/
theorem extract_umi_contract (header : List Nat) (expected : Nat) :
    (extract_umi_from_header header expected = ExtractOutcome.noUmi ∨
     extract_umi_from_header header expected = ExtractOutcome.panics ∨
     ∃ t, extract_umi_from_header header expected = ExtractOutcome.umi t ∧
       t.length = expected ∧ ∀ b ∈ t, ¬(97 ≤ b ∧ b ≤ 122)) ∧
    (∀ c, candidateUmiStr header = some c → (encodeUtf8 c).length ≠ expected →
      extract_umi_from_header header expected = ExtractOutcome.panics) := by
  constructor
  · unfold extract_umi_from_header
    cases hc : candidateUmiStr header with
    | none => exact Or.inl rfl
    | some c =>
      dsimp only
      by_cases hlen : (encodeUtf8 c).length ≠ expected
      · rw [if_pos hlen]
        exact Or.inr (Or.inl rfl)
      · rw [if_neg hlen]
        push_neg at hlen
        refine Or.inr (Or.inr ⟨_, rfl, ?_, ?_⟩)
        · simp [toAsciiUppercase, hlen]
        · intro b hb
          simp only [toAsciiUppercase, List.mem_map] at hb
          rcases hb with ⟨a, -, rfl⟩
          by_cases ha : 97 ≤ a ∧ a ≤ 122
          · rw [if_pos ha]
            omega
          · rw [if_neg ha]
            omega
  · intro c hc hne
    unfold extract_umi_from_header
    rw [hc]
    dsimp only
    rw [if_pos hne]

/-- C9, witness: the header `"r:ac"` with expected length 3 panics. -/
theorem extract_umi_contract_witness :
    extract_umi_from_header [114, 58, 97, 99] 3 = ExtractOutcome.panics :=
  (extract_umi_contract [114, 58, 97, 99] 3).2 [97, 99] (by decide) (by decide)

/-- C10: calling `is_umi_in_read` with a zero-length UMI panics for every
read and every tolerance (`read.windows(0)` for ordinary tolerances, the
`max_mismatches + 1` overflow at `u32::MAX`); it never returns a
boolean. -/
theorem empty_umi_panics (read : List Nat) (maxMismatches : Nat) :
    is_umi_in_read [] read maxMismatches = none := by
  simp only [is_umi_in_read, List.length_nil]
  rw [if_neg (by omega)]
  by_cases hm : maxMismatches = 0
  · rw [if_pos hm]
    simp
  · rw [if_neg hm]
    by_cases hg : maxMismatches + 1 ≥ 2 ^ 32
    · rw [if_pos hg]
    · rw [if_neg hg, if_pos (by omega)]
      simp

end UmiChecker
